import Mathlib

/-!
Verification of the beam-search inference code of `clip_text_decoder/model.py`.

The development shallowly embeds the two classes the claims are about:

* `ClipDecoder.forward` (lines 29-50): the zero-padded cross-attention hidden
  state is modelled by `forwardHidden` on rational-valued tensors represented
  as nested lists.
* `ClipDecoderInferenceModel.__call__` (lines 125-175): the beam-search loop is
  modelled over an abstract generation interface `GenModel`.  The pretrained
  GPT-2 language model composed with `F.log_softmax` is an opaque function
  from a token prefix to the vector of next-token log-probabilities; scores
  are drawn from an arbitrary linearly ordered additive type `α` standing in
  for the machine reals (every theorem holds for any such `α`, and the
  executable witnesses instantiate `α := ℤ`).
* `ClipDecoderInferenceModel.save` (lines 101-108): the in-place FP16 cast and
  the state-dict round trip are modelled by `saveModelEffect` on `TorchModel`,
  with `fp16Round` the exact IEEE half-precision rounding on rationals.

Fallible tensor operations (`torch.tensor(None)`, `argmax` of an empty tensor,
out-of-range indexing) are modelled by `Option`, with `none` for a raised
exception.
-/

namespace ClipTextDecoder

/-- Vocabulary token ids.  A generated token is the index of a row of the
logit vector, exactly as in `torch.cat([_input_ids, idx.reshape(-1)])`. -/
abbrev Token := ℕ

section Scores

variable {α : Type} [LinearOrder α]

/-- Ranking of candidate indices used to embed `torch.Tensor.topk`: index `i`
beats index `j` when its score is strictly larger, or the two scores are equal
and `i` comes first.  This fixes a deterministic tie-break (ties towards the
smaller index) for the otherwise unspecified tie order of `topk`. -/
def beatsRel (l : List α) [Zero α] (i j : ℕ) : Prop :=
  l.getD j 0 < l.getD i 0 ∨ (l.getD i 0 = l.getD j 0 ∧ i ≤ j)

variable [Zero α]

instance beatsRelDecidable (l : List α) : DecidableRel (beatsRel l) := fun i j => by
  unfold beatsRel; infer_instance

instance beatsRelTotal (l : List α) : IsTotal ℕ (beatsRel l) where
  total i j := by
    unfold beatsRel
    rcases lt_trichotomy (l.getD i 0) (l.getD j 0) with h | h | h
    · exact Or.inr (Or.inl h)
    · rcases Nat.le_total i j with hij | hij
      · exact Or.inl (Or.inr ⟨h, hij⟩)
      · exact Or.inr (Or.inr ⟨h.symm, hij⟩)
    · exact Or.inl (Or.inl h)

instance beatsRelTrans (l : List α) : IsTrans ℕ (beatsRel l) where
  trans i j k hij hjk := by
    rcases hij with h1 | ⟨e1, le1⟩
    · rcases hjk with h2 | ⟨e2, le2⟩
      · exact Or.inl (h2.trans h1)
      · exact Or.inl (by rw [← e2]; exact h1)
    · rcases hjk with h2 | ⟨e2, le2⟩
      · exact Or.inl (by rw [e1]; exact h2)
      · exact Or.inr ⟨e1.trans e2, le1.trans le2⟩

/-- Embeds `torch.Tensor.topk(k)` on a score vector `l`: the indices of the `k`
largest entries, best first, ties resolved towards the smaller index. -/
def topkIndices (l : List α) (k : ℕ) : List ℕ :=
  (List.insertionSort (beatsRel l) (List.range l.length)).take k

/-- Embeds `torch.Tensor.argmax` on a score vector: the index of the first
occurrence of the maximum (`0` on the empty vector, where torch raises). -/
def argmaxIdx : List α → ℕ
  | [] => 0
  | [_] => 0
  | x :: y :: xs =>
    let j := argmaxIdx (y :: xs)
    if (y :: xs).getD j 0 ≤ x then 0 else j + 1

end Scores

/-! ## `ClipDecoder.forward` (model.py lines 29-50)

Tensors of shape `(batch, 1, features)` are nested lists; the innermost list is
the feature axis. -/

/-- Embeds the slice assignment `dst[..., :src.length] = src` on the feature
axis: the first `src.length` entries of `dst` are overwritten by `src` and the
remaining entries of `dst` are kept. -/
def assignFront (dst src : List ℚ) : List ℚ := src ++ dst.drop src.length

/-- Embeds lines 36-43 of `ClipDecoder.forward`: a fresh zero tensor of shape
`(batch_size, 1, 768)` whose first `num_features` feature entries are
overwritten by the encoder embedding; the result is what is passed to the GPT-2
cross-attention as `encoder_hidden_states`. -/
def forwardHidden (encoder_hidden_states : List (List (List ℚ))) : List (List (List ℚ)) :=
  encoder_hidden_states.map (fun seq => seq.map (fun row => assignFront (List.replicate 768 0) row))

/-! ## `ClipDecoderInferenceModel.__call__` (model.py lines 125-175) -/

/-- Abstract interface to the pretrained components used by `__call__`, for one
fixed encoder input `x`:

* `nextLogprobs ids` embeds
  `F.log_softmax(self.model(ids.unsqueeze(0), encoder_hidden_states).logits[0, -1], dim=-1)`
  (lines 133-135) — the language model composed with log-softmax, with the
  encoder state baked in; the claims treat this composite as an opaque map from
  a token prefix to the score vector over the vocabulary;
* `bos` embeds `self.tokenizer.bos_token_id`, `eos` embeds
  `self.tokenizer.eos_token_id` (for the repository's GPT-2 tokenizer the two
  ids coincide);
* `decode` embeds `self.tokenizer.decode(·, skip_special_tokens=True)`. -/
structure GenModel (α : Type) where
  nextLogprobs : List Token → List α
  bos : Token
  eos : Token
  decode : List Token → String

section BeamSearch

variable {α : Type} [LinearOrder α] [AddZeroClass α]

/-- Embeds `_get_beam_outputs` (lines 132-144): the top `beam_size` next tokens
of the current beam together with their log-probabilities. -/
def getBeamOutputs (m : GenModel α) (beam_size : ℕ) (ids : List Token) :
    List (List Token) × List α :=
  let logprobs := m.nextLogprobs ids
  let idxs := topkIndices logprobs beam_size
  (idxs.map (fun t => ids ++ [t]), idxs.map (fun t => logprobs.getD t 0))

/-- Embeds the guard `beam_logprobs and ids[-1].item() == self.tokenizer.eos_token_id`
(line 152).  Python truthiness makes the conjunction `False` whenever
`beam_logprobs` is `None` or the empty list. -/
def beamDone (m : GenModel α) (beam_logprobs : Option (List α)) (ids : List Token) : Bool :=
  match beam_logprobs with
  | none => false
  | some lps => !lps.isEmpty && ids.getLast? == some m.eos

/-- Embeds one pass of the inner loop `for beam_idx, ids in enumerate(input_ids)`
(lines 151-163), accumulating `output_ids`, `logprobs` and `beams_done` in
order.  A beam flagged done is carried over verbatim with its recorded score;
an active beam contributes its `beam_size` best one-token extensions, each
scored by the token log-probability plus (when recorded) the beam's cumulative
log-probability. -/
def expandBeams (m : GenModel α) (beam_size : ℕ) (beam_logprobs : Option (List α)) :
    List (ℕ × List Token) → List (List Token) × List α × List Bool
  | [] => ([], [], [])
  | (i, ids) :: rest =>
    let acc := expandBeams m beam_size beam_logprobs rest
    if beamDone m beam_logprobs ids then
      (ids :: acc.1, (beam_logprobs.getD []).getD i 0 :: acc.2.1, true :: acc.2.2)
    else
      let out := getBeamOutputs m beam_size ids
      let lps := match beam_logprobs with
        | some blps => out.2.map (fun v => v + blps.getD i 0)
        | none => out.2
      (out.1 ++ acc.1, lps ++ acc.2.1, false :: acc.2.2)

/-- The loop state of `__call__`: the current beam sequences (`input_ids`,
line 129) and their cumulative log-probabilities (`beam_logprobs`, line 130,
`none` before the first re-ranking). -/
structure BeamState (α : Type) where
  input_ids : List (List Token)
  beam_logprobs : Option (List α)
deriving DecidableEq

/-- Embeds one iteration of `for _ in range(max_len - 1)` (lines 146-171):
`none` models the `break` taken when every `beams_done` flag is set; otherwise
the merged candidate lists are re-ranked by a global `topk` over all
accumulated scores and the beam set is replaced by the selected candidates. -/
def stepResult (m : GenModel α) (beam_size : ℕ) (S : BeamState α) : Option (BeamState α) :=
  let acc := expandBeams m beam_size S.beam_logprobs S.input_ids.enum
  if acc.2.2.all (fun b => b) then none
  else
    let idxs := topkIndices acc.2.1 beam_size
    some ⟨idxs.map (fun i => acc.1.getD i []), some (idxs.map (fun i => acc.2.1.getD i 0))⟩

/-- The decoding loop, with the iteration count `range(max_len - 1)` as fuel. -/
def runLoop (m : GenModel α) (beam_size : ℕ) : ℕ → BeamState α → BeamState α
  | 0, S => S
  | n + 1, S =>
    match stepResult m beam_size S with
    | none => S
    | some S' => runLoop m beam_size n S'

/-- One loop iteration as a total function on states (an iteration that breaks
leaves the state unchanged); `runLoop` with fuel `f` coincides with `f`
iterations of `stepFn`. -/
def stepFn (m : GenModel α) (beam_size : ℕ) (S : BeamState α) : BeamState α :=
  (stepResult m beam_size S).getD S

/-- Embeds lines 173-175: `argmax` over `beam_logprobs` and extraction of the
best beam.  `torch.tensor(None)` (when `max_len <= 1` left `beam_logprobs`
as `None`), `argmax` over an empty tensor, and out-of-range indexing of
`input_ids` all raise; a raise is `none`. -/
def finalizeBeams (S : BeamState α) : Option (List Token) :=
  match S.beam_logprobs with
  | none => none
  | some lps => if lps.isEmpty then none else S.input_ids[argmaxIdx lps]?

/-- The initial loop state (lines 129-130): the single beam `[bos_token_id]`
and no recorded scores. -/
def initState (m : GenModel α) : BeamState α := ⟨[[m.bos]], none⟩

/-- Embeds `ClipDecoderInferenceModel.__call__` at the token level: the token
sequence of the best final beam (before `tokenizer.decode`). -/
def callTokens (m : GenModel α) (max_len beam_size : ℕ) : Option (List Token) :=
  finalizeBeams (runLoop m beam_size (max_len - 1) (initState m))

/-- Embeds `ClipDecoderInferenceModel.__call__`: the returned caption string. -/
def callString (m : GenModel α) (max_len beam_size : ℕ) : Option String :=
  (callTokens m max_len beam_size).map m.decode

/-- Cumulative log-probability of beam `i` recorded in `beam_logprobs` (`0`
before the first re-ranking, where no score has been accumulated yet and the
code skips the `+= beam_logprobs[beam_idx]` update, line 159). -/
def cumOf (beam_logprobs : Option (List α)) (i : ℕ) : α :=
  match beam_logprobs with
  | some lps => lps.getD i 0
  | none => 0

/-- Candidate continuations contributed by the enumerated beam `(i, ids)` in
one decoding step, paired with their scores: an ended beam carries itself with
unchanged score, an active beam is extended by each of its top `beam_size`
next tokens, scored token log-probability plus cumulative log-probability. -/
def beamCandidates (m : GenModel α) (beam_size : ℕ) (beam_logprobs : Option (List α))
    (p : ℕ × List Token) : List (List Token × α) :=
  if beamDone m beam_logprobs p.2 then
    [(p.2, cumOf beam_logprobs p.1)]
  else
    let lp := m.nextLogprobs p.2
    (topkIndices lp beam_size).map
      (fun t => (p.2 ++ [t], lp.getD t 0 + cumOf beam_logprobs p.1))

/-- The merged candidate pool of one decoding step: the concatenation, in beam
order, of every beam's candidate continuations. -/
def candidatePool (m : GenModel α) (beam_size : ℕ) (S : BeamState α) : List (List Token × α) :=
  S.input_ids.enum.flatMap (beamCandidates m beam_size S.beam_logprobs)

end BeamSearch

/-- Greedy decoding, written from the specification for the refinement claim:
repeatedly append the single argmax-log-probability next token to the sequence,
stopping once the appended token is the end token or the maximum length is
reached. -/
def greedyFrom {α : Type} [LinearOrder α] [AddZeroClass α] (m : GenModel α) :
    ℕ → List Token → List Token
  | 0, ids => ids
  | n + 1, ids =>
    let t := argmaxIdx (m.nextLogprobs ids)
    if t = m.eos then ids ++ [t] else greedyFrom m n (ids ++ [t])

/-- Greedy decoding from the start token with maximum total length `max_len`. -/
def greedy {α : Type} [LinearOrder α] [AddZeroClass α] (m : GenModel α) (max_len : ℕ) : List Token :=
  greedyFrom m (max_len - 1) [m.bos]

/-! ## Properties of the selection primitives -/

section TopkLemmas

variable {α : Type} [LinearOrder α] [Zero α]

theorem topkIndices_length (l : List α) (k : ℕ) :
    (topkIndices l k).length = min k l.length := by
  unfold topkIndices
  rw [List.length_take, (List.perm_insertionSort (beatsRel l) (List.range l.length)).length_eq,
    List.length_range]

theorem topkIndices_mem_lt {l : List α} {k i : ℕ} (h : i ∈ topkIndices l k) : i < l.length := by
  unfold topkIndices at h
  have h2 := List.mem_of_mem_take h
  have h3 := (List.perm_insertionSort (beatsRel l) (List.range l.length)).mem_iff.mp h2
  exact List.mem_range.mp h3

theorem topkIndices_beats {l : List α} {k i j : ℕ} (hi : i ∈ topkIndices l k)
    (hjlt : j < l.length) (hj : j ∉ topkIndices l k) : beatsRel l i j := by
  have hsorted : List.Pairwise (beatsRel l)
      (List.insertionSort (beatsRel l) (List.range l.length)) :=
    List.sorted_insertionSort (beatsRel l) (List.range l.length)
  have hsplit : List.insertionSort (beatsRel l) (List.range l.length) =
      (List.insertionSort (beatsRel l) (List.range l.length)).take k ++
      (List.insertionSort (beatsRel l) (List.range l.length)).drop k :=
    (List.take_append_drop k _).symm
  rw [hsplit, List.pairwise_append] at hsorted
  have hjs : j ∈ List.insertionSort (beatsRel l) (List.range l.length) :=
    (List.perm_insertionSort (beatsRel l) (List.range l.length)).mem_iff.mpr
      (List.mem_range.mpr hjlt)
  have hjdrop : j ∈ (List.insertionSort (beatsRel l) (List.range l.length)).drop k := by
    rw [hsplit] at hjs
    rcases List.mem_append.mp hjs with h | h
    · exact absurd h hj
    · exact h
  exact hsorted.2.2 i hi j hjdrop

theorem topkIndices_getD_le {l : List α} {k i j : ℕ} (hi : i ∈ topkIndices l k)
    (hjlt : j < l.length) (hj : j ∉ topkIndices l k) : l.getD j 0 ≤ l.getD i 0 := by
  rcases topkIndices_beats hi hjlt hj with h | ⟨h, _⟩
  · exact le_of_lt h
  · exact le_of_eq h.symm

theorem argmaxIdx_spec (l : List α) (h : l ≠ []) :
    argmaxIdx l < l.length ∧
    (∀ j < l.length, l.getD j 0 ≤ l.getD (argmaxIdx l) 0) ∧
    (∀ j < argmaxIdx l, l.getD j 0 < l.getD (argmaxIdx l) 0) := by
  induction l with
  | nil => exact absurd rfl h
  | cons x xs ih =>
    cases xs with
    | nil =>
      refine ⟨by simp [argmaxIdx], ?_, ?_⟩
      · intro j hj
        have hj0 : j = 0 := by simpa using hj
        subst hj0
        simp [argmaxIdx]
      · intro j hj
        simp [argmaxIdx] at hj
    | cons y ys =>
      obtain ⟨ih1, ih2, ih3⟩ := ih (by simp)
      by_cases hc : (y :: ys).getD (argmaxIdx (y :: ys)) 0 ≤ x
      · have he : argmaxIdx (x :: y :: ys) = 0 := by
          simp only [argmaxIdx]
          rw [if_pos hc]
        rw [he]
        refine ⟨by simp, ?_, ?_⟩
        · intro j hj
          cases j with
          | zero => simp
          | succ j' =>
            rw [List.getD_cons_succ, List.getD_cons_zero]
            have hj' : j' < (y :: ys).length := by simpa using hj
            exact le_trans (ih2 j' hj') hc
        · intro j hj
          exact absurd hj (by omega)
      · have he : argmaxIdx (x :: y :: ys) = argmaxIdx (y :: ys) + 1 := by
          simp only [argmaxIdx]
          rw [if_neg hc]
        push_neg at hc
        rw [he]
        refine ⟨by simpa using ih1, ?_, ?_⟩
        · intro j hj
          cases j with
          | zero =>
            rw [List.getD_cons_zero, List.getD_cons_succ]
            exact le_of_lt hc
          | succ j' =>
            rw [List.getD_cons_succ, List.getD_cons_succ]
            exact ih2 j' (by simpa using hj)
        · intro j hj
          cases j with
          | zero =>
            rw [List.getD_cons_zero, List.getD_cons_succ]
            exact hc
          | succ j' =>
            rw [List.getD_cons_succ, List.getD_cons_succ]
            exact ih3 j' (by omega)

theorem topkIndices_one (l : List α) (h : l ≠ []) : topkIndices l 1 = [argmaxIdx l] := by
  have hpos : 0 < l.length := List.length_pos.mpr h
  have hlen : (topkIndices l 1).length = 1 := by
    rw [topkIndices_length]; omega
  obtain ⟨a, ha⟩ := List.length_eq_one.mp hlen
  obtain ⟨hm1, hm2, hm3⟩ := argmaxIdx_spec l h
  have hamem : a ∈ topkIndices l 1 := by rw [ha]; exact List.mem_singleton.mpr rfl
  have halt : a < l.length := topkIndices_mem_lt hamem
  rw [ha]
  rcases Nat.lt_trichotomy a (argmaxIdx l) with hlt | heq | hgt
  · exfalso
    have hnotin : argmaxIdx l ∉ topkIndices l 1 := by
      rw [ha]
      intro hmem
      have := List.mem_singleton.mp hmem
      omega
    rcases topkIndices_beats hamem hm1 hnotin with hb | ⟨hb, _⟩
    · exact absurd hb (not_lt_of_lt (hm3 a hlt))
    · exact absurd (hm3 a hlt) (by rw [hb]; exact lt_irrefl _)
  · rw [heq]
  · exfalso
    have hnotin : argmaxIdx l ∉ topkIndices l 1 := by
      rw [ha]
      intro hmem
      have := List.mem_singleton.mp hmem
      omega
    rcases topkIndices_beats hamem hm1 hnotin with hb | ⟨_, hb⟩
    · exact absurd (hm2 a halt) (not_le_of_lt hb)
    · omega

end TopkLemmas

/-- Quantification over the enumerated list touches exactly the list members. -/
theorem forall_mem_enum_snd {β : Type} {l : List β} {P : β → Prop} :
    (∀ p ∈ l.enum, P p.2) ↔ ∀ x ∈ l, P x := by
  constructor
  · intro h x hx
    rw [← List.enum_map_snd l] at hx
    obtain ⟨p, hp, he⟩ := List.mem_map.mp hx
    exact he ▸ h p hp
  · intro h p hp
    refine h p.2 ?_
    rw [← List.enum_map_snd l]
    exact List.mem_map_of_mem Prod.snd hp

/-- A single block of a `flatMap` is no longer than the whole. -/
theorem length_le_length_flatMap {β γ : Type} {L : List β} (f : β → List γ) {p : β}
    (hp : p ∈ L) : (f p).length ≤ (L.flatMap f).length := by
  induction L with
  | nil => simp at hp
  | cons q rest ih =>
    rw [List.flatMap_cons, List.length_append]
    rcases List.mem_cons.mp hp with rfl | hp'
    · exact Nat.le_add_right _ _
    · exact le_trans (ih hp') (Nat.le_add_left _ _)

/-! ## The loop body as a candidate pool -/

section PoolLemmas

variable {α : Type} [LinearOrder α] [AddZeroClass α]

/-- The accumulating inner loop produces exactly the merged candidate pool:
its `output_ids` are the pool's sequences, its `logprobs` are the pool's
scores, and its `beams_done` flags record which beams were carried. -/
theorem expandBeams_eq (m : GenModel α) (k : ℕ) (o : Option (List α))
    (L : List (ℕ × List Token)) :
    expandBeams m k o L =
      ((L.flatMap (beamCandidates m k o)).map Prod.fst,
       (L.flatMap (beamCandidates m k o)).map Prod.snd,
       L.map (fun p => beamDone m o p.2)) := by
  induction L with
  | nil => rfl
  | cons p rest ih =>
    obtain ⟨i, ids⟩ := p
    by_cases hd : beamDone m o ids
    · cases o with
      | none => simp [beamDone] at hd
      | some lps =>
        simp only [expandBeams, ih, hd, if_pos, beamCandidates, cumOf, List.flatMap_cons,
          List.map_append, List.map_cons, List.map_nil, Option.getD_some, List.map_map]
        rfl
    · cases o with
      | none =>
        simp only [expandBeams, ih, hd, if_neg, beamCandidates, cumOf, List.flatMap_cons,
          List.map_append, List.map_cons, List.map_nil, List.map_map, getBeamOutputs,
          Bool.false_eq_true, ite_false]
        simp [Function.comp_def, add_zero]
      | some lps =>
        simp only [expandBeams, ih, hd, if_neg, beamCandidates, cumOf, List.flatMap_cons,
          List.map_append, List.map_cons, List.map_nil, List.map_map, getBeamOutputs,
          Bool.false_eq_true, ite_false]
        simp [Function.comp_def]

/-- The `break` of line 165 fires exactly when every beam is flagged done. -/
theorem stepResult_eq_none_iff (m : GenModel α) (k : ℕ) (S : BeamState α) :
    stepResult m k S = none ↔
      ∀ ids ∈ S.input_ids, beamDone m S.beam_logprobs ids = true := by
  unfold stepResult
  rw [expandBeams_eq]
  by_cases hc : (S.input_ids.enum.map (fun p => beamDone m S.beam_logprobs p.2)).all
      (fun b => b) = true
  · simp only [hc, if_pos, true_iff]
    intro ids hm
    rw [List.all_eq_true] at hc
    have hall : ∀ x ∈ S.input_ids, beamDone m S.beam_logprobs x = true :=
      forall_mem_enum_snd.mp
        (fun p hp => hc (beamDone m S.beam_logprobs p.2) (List.mem_map_of_mem _ hp))
    exact hall ids hm
  · simp only [hc, if_neg, Bool.false_eq_true, ite_false]
    constructor
    · intro h; exact absurd h (by simp)
    · intro h
      exfalso
      refine hc ?_
      rw [List.all_eq_true]
      intro b hb
      obtain ⟨p, hp, he⟩ := List.mem_map.mp hb
      rw [← he]
      exact forall_mem_enum_snd.mpr h p hp

/-- When the step does not break, the new beam set and scores are the global
`topk` selection over the merged candidate pool. -/
theorem stepResult_some_eq {m : GenModel α} {k : ℕ} {S S' : BeamState α}
    (h : stepResult m k S = some S') :
    S'.input_ids = (topkIndices ((candidatePool m k S).map Prod.snd) k).map
      (fun i => ((candidatePool m k S).map Prod.fst).getD i []) ∧
    S'.beam_logprobs = some ((topkIndices ((candidatePool m k S).map Prod.snd) k).map
      (fun i => ((candidatePool m k S).map Prod.snd).getD i 0)) := by
  unfold stepResult at h
  rw [expandBeams_eq] at h
  by_cases hc : (S.input_ids.enum.map (fun p => beamDone m S.beam_logprobs p.2)).all
      (fun b => b) = true
  · rw [if_pos hc] at h
    exact absurd h (by simp)
  · rw [if_neg hc] at h
    have h2 := Option.some.inj h
    rw [← h2]
    exact ⟨rfl, rfl⟩

/-- If some beam is still active, the merged pool holds at least `beam_size`
candidates (each active beam contributes exactly `beam_size` of them). -/
theorem candidatePool_length_ge {m : GenModel α} {k : ℕ} {S : BeamState α}
    (hv : ∀ ids, k ≤ (m.nextLogprobs ids).length)
    (h : stepResult m k S ≠ none) : k ≤ (candidatePool m k S).length := by
  have hex : ∃ ids ∈ S.input_ids, ¬ beamDone m S.beam_logprobs ids = true := by
    by_contra hall
    push_neg at hall
    exact h ((stepResult_eq_none_iff m k S).mpr hall)
  obtain ⟨ids, hm, hfalse⟩ := hex
  rw [← List.enum_map_snd S.input_ids] at hm
  obtain ⟨p, hp, he⟩ := List.mem_map.mp hm
  have hlen : (beamCandidates m k S.beam_logprobs p).length = k := by
    unfold beamCandidates
    rw [if_neg (by rw [he]; exact hfalse)]
    rw [List.length_map, topkIndices_length]
    exact Nat.min_eq_left (hv p.2)
  calc k = (beamCandidates m k S.beam_logprobs p).length := hlen.symm
    _ ≤ (candidatePool m k S).length :=
        length_le_length_flatMap (beamCandidates m k S.beam_logprobs) hp

/-- Every candidate in the pool is an old beam carried because it was done, or
an old beam extended by one token. -/
theorem mem_pool_structure {m : GenModel α} {k : ℕ} {S : BeamState α} {c : List Token × α}
    (hc : c ∈ candidatePool m k S) :
    ∃ ids ∈ S.input_ids,
      (beamDone m S.beam_logprobs ids = true ∧ c.1 = ids) ∨ ∃ t, c.1 = ids ++ [t] := by
  unfold candidatePool at hc
  obtain ⟨p, hp, hcp⟩ := List.mem_flatMap.mp hc
  refine ⟨p.2, ?_, ?_⟩
  · rw [← List.enum_map_snd S.input_ids]
    exact List.mem_map_of_mem Prod.snd hp
  · unfold beamCandidates at hcp
    by_cases hd : beamDone m S.beam_logprobs p.2
    · rw [if_pos hd] at hcp
      have := List.mem_singleton.mp hcp
      exact Or.inl ⟨hd, by rw [this]⟩
    · rw [if_neg hd] at hcp
      obtain ⟨t, _, he⟩ := List.mem_map.mp hcp
      exact Or.inr ⟨t, by rw [← he]⟩

/-- Every beam of the next state is drawn from the candidate pool. -/
theorem stepResult_input_mem {m : GenModel α} {k : ℕ} {S S' : BeamState α}
    (h : stepResult m k S = some S') {ids : List Token} (hm : ids ∈ S'.input_ids) :
    ids ∈ (candidatePool m k S).map Prod.fst := by
  obtain ⟨h1, _⟩ := stepResult_some_eq h
  rw [h1] at hm
  obtain ⟨i, hi, he⟩ := List.mem_map.mp hm
  have hilt : i < ((candidatePool m k S).map Prod.snd).length := topkIndices_mem_lt hi
  rw [List.length_map] at hilt
  have hilt2 : i < ((candidatePool m k S).map Prod.fst).length := by
    rw [List.length_map]; exact hilt
  rw [← he, List.getD_eq_getElem _ _ hilt2]
  exact List.getElem_mem hilt2

end PoolLemmas

/-! ## Loop invariants and loop characterization -/

section LoopLemmas

variable {α : Type} [LinearOrder α] [AddZeroClass α]

/-- Shape invariant of the loop state after at least one re-ranking: scores
are recorded, beams and scores both number exactly `beam_size`, and every beam
is a `bos`-headed sequence of length at least 2. -/
def StateInv (m : GenModel α) (k : ℕ) (S : BeamState α) : Prop :=
  ∃ lps, S.beam_logprobs = some lps ∧ S.input_ids.length = k ∧ lps.length = k ∧
    ∀ ids ∈ S.input_ids, 2 ≤ ids.length ∧ ids.head? = some m.bos

/-- The first iteration can never break: with `beam_logprobs = None` no done
flag is set, whatever the start token is. -/
theorem stepResult_init_ne_none (m : GenModel α) (k : ℕ) :
    stepResult m k (initState m) ≠ none := by
  intro h
  have := (stepResult_eq_none_iff m k (initState m)).mp h [m.bos] (by simp [initState])
  simp [beamDone, initState] at this

/-- One non-breaking iteration from the initial state or from an invariant
state re-establishes the invariant. -/
theorem stateInv_step {m : GenModel α} {k : ℕ} {S S' : BeamState α} (hk : 1 ≤ k)
    (hv : ∀ ids, k ≤ (m.nextLogprobs ids).length)
    (hS : StateInv m k S ∨ S = initState m) (h : stepResult m k S = some S') :
    StateInv m k S' := by
  obtain ⟨h1, h2⟩ := stepResult_some_eq h
  have hpool : k ≤ (candidatePool m k S).length :=
    candidatePool_length_ge hv (by rw [h]; simp)
  have hlen : (topkIndices ((candidatePool m k S).map Prod.snd) k).length = k := by
    rw [topkIndices_length, List.length_map]
    omega
  refine ⟨_, h2, ?_, ?_, ?_⟩
  · rw [h1, List.length_map, hlen]
  · rw [List.length_map, hlen]
  · intro ids hm
    have hmem := stepResult_input_mem h hm
    obtain ⟨c, hc, hce⟩ := List.mem_map.mp hmem
    obtain ⟨src, hsrc, hstruct⟩ := mem_pool_structure hc
    rcases hS with hinv | hinit
    · obtain ⟨lps, _, _, _, hbeams⟩ := hinv
      obtain ⟨hl2, hhead⟩ := hbeams src hsrc
      rcases hstruct with ⟨_, he⟩ | ⟨t, he⟩
      · exact ⟨by rw [← hce, he]; exact hl2, by rw [← hce, he]; exact hhead⟩
      · constructor
        · rw [← hce, he, List.length_append]
          simp only [List.length_singleton]
          omega
        · rw [← hce, he]
          cases src with
          | nil => simp at hl2
          | cons a restl => simpa using hhead
    · subst hinit
      have hsrc2 : src = [m.bos] := by simpa [initState] using hsrc
      subst hsrc2
      rcases hstruct with ⟨hdone, _⟩ | ⟨t, he⟩
      · simp [beamDone, initState] at hdone
      · constructor
        · rw [← hce, he]
          simp
        · rw [← hce, he]
          simp

theorem stepFn_eq_of_some {m : GenModel α} {k : ℕ} {S S' : BeamState α}
    (h : stepResult m k S = some S') : stepFn m k S = S' := by
  unfold stepFn
  rw [h]
  rfl

theorem stepFn_eq_of_none {m : GenModel α} {k : ℕ} {S : BeamState α}
    (h : stepResult m k S = none) : stepFn m k S = S := by
  unfold stepFn
  rw [h]
  rfl

/-- The invariant holds at every iterate of the loop after the first. -/
theorem stateInv_iterate (m : GenModel α) (k : ℕ) (hk : 1 ≤ k)
    (hv : ∀ ids, k ≤ (m.nextLogprobs ids).length) :
    ∀ n, 1 ≤ n → StateInv m k ((stepFn m k)^[n] (initState m)) := by
  intro n hn
  induction n with
  | zero => omega
  | succ n ih =>
    rcases Nat.eq_zero_or_pos n with rfl | hpos
    · rw [Function.iterate_one]
      cases h : stepResult m k (initState m) with
      | none => exact absurd h (stepResult_init_ne_none m k)
      | some S' =>
        rw [stepFn_eq_of_some h]
        exact stateInv_step hk hv (Or.inr rfl) h
    · have hInv := ih hpos
      rw [Function.iterate_succ_apply']
      cases h : stepResult m k ((stepFn m k)^[n] (initState m)) with
      | none =>
        rw [stepFn_eq_of_none h]
        exact hInv
      | some S' =>
        rw [stepFn_eq_of_some h]
        exact stateInv_step hk hv (Or.inl hInv) h

/-- The fueled loop stops at the first breaking iterate: it equals some number
`n ≤ f` of applications of `stepFn`, every iteration before `n` really
expanded, and an early stop means iterate `n` breaks. -/
theorem runLoop_spec (m : GenModel α) (k : ℕ) :
    ∀ (f : ℕ) (S : BeamState α), ∃ n, n ≤ f ∧
      runLoop m k f S = (stepFn m k)^[n] S ∧
      (∀ i < n, stepResult m k ((stepFn m k)^[i] S) ≠ none) ∧
      (n < f → stepResult m k ((stepFn m k)^[n] S) = none) := by
  intro f
  induction f with
  | zero => exact fun S => ⟨0, le_refl 0, rfl, by omega, by omega⟩
  | succ f ih =>
    intro S
    cases h : stepResult m k S with
    | none =>
      refine ⟨0, by omega, ?_, by omega, fun _ => h⟩
      show runLoop m k (f + 1) S = S
      unfold runLoop
      rw [h]
    | some S' =>
      obtain ⟨n, hn, he, hsome, hnone⟩ := ih S'
      have hfn : stepFn m k S = S' := by
        unfold stepFn
        rw [h]
        rfl
      refine ⟨n + 1, by omega, ?_, ?_, ?_⟩
      · show runLoop m k (f + 1) S = _
        unfold runLoop
        rw [h, Function.iterate_succ_apply, hfn]
        exact he
      · intro i hi
        cases i with
        | zero =>
          intro hcon
          rw [Function.iterate_zero_apply, h] at hcon
          exact Option.noConfusion hcon
        | succ j =>
          rw [Function.iterate_succ_apply, hfn]
          exact hsome j (by omega)
      · intro hlt
        rw [Function.iterate_succ_apply, hfn]
        exact hnone (by omega)

/-- The done flag of a beam with recorded, non-empty scores is exactly the
check that the beam's last token is the end token. -/
theorem beamDone_some_iff {m : GenModel α} {lps : List α} (h : lps ≠ []) (ids : List Token) :
    beamDone m (some lps) ids = true ↔ ids.getLast? = some m.eos := by
  simp [beamDone, h]

/-- After the first re-ranking, the loop breaks exactly when every beam ends
with the end-of-sequence token. -/
theorem stepResult_none_iff_ended {m : GenModel α} {k : ℕ} {S : BeamState α} {lps : List α}
    (hl : S.beam_logprobs = some lps) (h0 : lps ≠ []) :
    stepResult m k S = none ↔ ∀ ids ∈ S.input_ids, ids.getLast? = some m.eos := by
  rw [stepResult_eq_none_iff]
  constructor
  · intro h ids hm
    refine (beamDone_some_iff h0 ids).mp ?_
    have := h ids hm
    rw [hl] at this
    exact this
  · intro h ids hm
    rw [hl]
    exact (beamDone_some_iff h0 ids).mpr (h ids hm)

/-- On an invariant state the final extraction (lines 173-175) succeeds and
returns the beam at the argmax of the recorded scores. -/
theorem finalizeBeams_of_inv {m : GenModel α} {k : ℕ} {S : BeamState α} (hk : 1 ≤ k)
    (hS : StateInv m k S) :
    ∃ lps, S.beam_logprobs = some lps ∧ lps.length = k ∧
      finalizeBeams S = some (S.input_ids.getD (argmaxIdx lps) []) ∧
      argmaxIdx lps < S.input_ids.length ∧
      (∀ j < lps.length, lps.getD j 0 ≤ lps.getD (argmaxIdx lps) 0) := by
  obtain ⟨lps, h1, h2, h3, _⟩ := hS
  have hne : lps ≠ [] := by
    intro he
    rw [he] at h3
    simp at h3
    omega
  obtain ⟨ha1, ha2, _⟩ := argmaxIdx_spec lps hne
  have halt : argmaxIdx lps < S.input_ids.length := by omega
  refine ⟨lps, h1, h3, ?_, halt, ha2⟩
  unfold finalizeBeams
  rw [h1]
  have hfalse : lps.isEmpty = false := by simp [hne]
  simp only [hfalse, Bool.false_eq_true, ite_false]
  rw [List.getElem?_eq_getElem halt, List.getD_eq_getElem _ _ halt]

end LoopLemmas

/-! ## Width-one beam search is greedy decoding -/

section GreedyLemmas

variable {α : Type} [LinearOrder α] [AddZeroClass α]

/-- A width-one step on a single active beam appends the argmax token and
accumulates its log-probability. -/
theorem stepResult_single {m : GenModel α} {ids : List Token} {o : Option (List α)}
    (hnd : beamDone m o ids = false) (hvne : m.nextLogprobs ids ≠ []) :
    stepResult m 1 ⟨[ids], o⟩ =
      some ⟨[ids ++ [argmaxIdx (m.nextLogprobs ids)]],
            some [(m.nextLogprobs ids).getD (argmaxIdx (m.nextLogprobs ids)) 0 + cumOf o 0]⟩ := by
  have hcand : beamCandidates m 1 o (0, ids) =
      [(ids ++ [argmaxIdx (m.nextLogprobs ids)],
        (m.nextLogprobs ids).getD (argmaxIdx (m.nextLogprobs ids)) 0 + cumOf o 0)] := by
    unfold beamCandidates
    rw [if_neg (by rw [hnd]; simp)]
    show (topkIndices (m.nextLogprobs ids) 1).map
        (fun t => (ids ++ [t], (m.nextLogprobs ids).getD t 0 + cumOf o 0)) = _
    rw [topkIndices_one _ hvne]
    rfl
  have hexp : expandBeams m 1 o [(0, ids)] =
      ([ids ++ [argmaxIdx (m.nextLogprobs ids)]],
       [(m.nextLogprobs ids).getD (argmaxIdx (m.nextLogprobs ids)) 0 + cumOf o 0],
       [false]) := by
    rw [expandBeams_eq]
    simp [hcand, hnd]
  have henum : (⟨[ids], o⟩ : BeamState α).input_ids.enum = [(0, ids)] := rfl
  unfold stepResult
  rw [henum, hexp]
  simp [topkIndices_one, argmaxIdx]

/-- A width-one beam whose last token is the end token freezes the loop. -/
theorem runLoop_single_done {m : GenModel α} {ids : List Token} {s : α}
    (hlast : ids.getLast? = some m.eos) (n : ℕ) :
    runLoop m 1 n ⟨[ids], some [s]⟩ = ⟨[ids], some [s]⟩ := by
  cases n with
  | zero => rfl
  | succ n =>
    have hnone : stepResult m 1 (⟨[ids], some [s]⟩ : BeamState α) = none := by
      rw [stepResult_eq_none_iff]
      intro ids' hm
      have he : ids' = ids := by simpa using hm
      subst he
      exact (beamDone_some_iff (by simp) ids').mpr hlast
    unfold runLoop
    rw [hnone]

/-- Width-one beam search from a single live beam finishes exactly like greedy
decoding continued from that beam. -/
theorem beam1_eq_greedyFrom {m : GenModel α} (hv : ∀ ids, m.nextLogprobs ids ≠ []) :
    ∀ (n : ℕ) (ids : List Token) (s : α), ids ≠ [] → ids.getLast? ≠ some m.eos →
      finalizeBeams (runLoop m 1 n ⟨[ids], some [s]⟩) = some (greedyFrom m n ids) := by
  intro n
  induction n with
  | zero =>
    intro ids s hne hlast
    show finalizeBeams (⟨[ids], some [s]⟩ : BeamState α) = some ids
    unfold finalizeBeams
    simp [argmaxIdx]
  | succ n ih =>
    intro ids s hne hlast
    have hnd : beamDone m (some [s]) ids = false := by
      simp [beamDone]
      exact hlast
    have hstep := stepResult_single hnd (hv ids)
    show finalizeBeams (runLoop m 1 (n + 1) ⟨[ids], some [s]⟩) = _
    unfold runLoop
    rw [hstep]
    show finalizeBeams (runLoop m 1 n
        ⟨[ids ++ [argmaxIdx (m.nextLogprobs ids)]],
         some [(m.nextLogprobs ids).getD (argmaxIdx (m.nextLogprobs ids)) 0 +
           cumOf (some [s]) 0]⟩) =
      some (greedyFrom m (n + 1) ids)
    by_cases he : argmaxIdx (m.nextLogprobs ids) = m.eos
    · rw [runLoop_single_done (by rw [List.getLast?_concat, he])]
      simp only [greedyFrom]
      rw [if_pos he]
      unfold finalizeBeams
      simp [argmaxIdx]
    · rw [ih (ids ++ [argmaxIdx (m.nextLogprobs ids)]) _ (by simp)
        (by rw [List.getLast?_concat]; simpa using he)]
      simp only [greedyFrom]
      rw [if_neg he]

/-- Width-one beam search from the start state equals greedy decoding. -/
theorem callTokens_beam1 {m : GenModel α} (max_len : ℕ) (h2 : 2 ≤ max_len)
    (hv : ∀ ids, m.nextLogprobs ids ≠ []) :
    callTokens m max_len 1 = some (greedy m max_len) := by
  obtain ⟨f, hf⟩ : ∃ f, max_len - 1 = f + 1 := ⟨max_len - 2, by omega⟩
  unfold callTokens greedy
  rw [hf]
  have h0 : beamDone m (none : Option (List α)) [m.bos] = false := rfl
  have hstep := stepResult_single h0 (hv [m.bos])
  have hcum : cumOf (none : Option (List α)) 0 = (0 : α) := rfl
  rw [hcum, add_zero] at hstep
  have hinit : (initState m) = (⟨[[m.bos]], none⟩ : BeamState α) := rfl
  rw [hinit]
  unfold runLoop
  rw [hstep]
  show finalizeBeams (runLoop m 1 f
      ⟨[[m.bos] ++ [argmaxIdx (m.nextLogprobs [m.bos])]],
       some [(m.nextLogprobs [m.bos]).getD (argmaxIdx (m.nextLogprobs [m.bos])) 0]⟩) =
    some (greedyFrom m (f + 1) [m.bos])
  by_cases he : argmaxIdx (m.nextLogprobs [m.bos]) = m.eos
  · rw [runLoop_single_done (by rw [List.getLast?_concat, he])]
    simp only [greedyFrom]
    rw [if_pos he]
    unfold finalizeBeams
    simp [argmaxIdx]
  · rw [beam1_eq_greedyFrom hv f ([m.bos] ++ [argmaxIdx (m.nextLogprobs [m.bos])]) _ (by simp)
      (by rw [List.getLast?_concat]; simpa using he)]
    simp only [greedyFrom]
    rw [if_neg he]

end GreedyLemmas

/-! ## `ClipDecoderInferenceModel.save` (model.py lines 101-108)

Weight values are exact rationals; the FP16 cast is IEEE half-precision
round-to-nearest-even, computed exactly. -/

def natLog2Go : ℕ → ℕ → ℕ
  | 0, _ => 0
  | f + 1, n => if 2 ≤ n then natLog2Go f (n / 2) + 1 else 0

/-- Largest `e` with `2 ^ e ≤ n`, for `n ≥ 1` (and `0` for `n ≤ 1`). -/
def natLog2 (n : ℕ) : ℕ := natLog2Go n n

def ceilLog2DivGo : ℕ → ℕ → ℕ → ℕ
  | 0, _, _ => 0
  | f + 1, q, p => if q ≤ p then 0 else ceilLog2DivGo f q (2 * p) + 1

/-- Smallest `e` with `q ≤ p * 2 ^ e`, for `p ≥ 1` (fuel `q` always suffices). -/
def ceilLog2Div (q p : ℕ) : ℕ := ceilLog2DivGo q q p

/-- Round `a / b` to the nearest natural number, ties to even. -/
def roundHalfEvenNat (a b : ℕ) : ℕ :=
  if 2 * (a % b) < b then a / b
  else if b < 2 * (a % b) then a / b + 1
  else if (a / b) % 2 = 0 then a / b else a / b + 1

/-- IEEE half-precision round-to-nearest-even of the positive rational
`p / q`, in the normal range (overflow and subnormals do not occur for the
weight values considered here): the value is scaled so that 11 significant
bits stay above the binary point, rounded, and scaled back. -/
def fp16RoundPos (p q : ℕ) : ℚ :=
  if q ≤ p then
    if natLog2 (p / q) ≤ 10 then
      (roundHalfEvenNat (p * 2 ^ (10 - natLog2 (p / q))) q : ℚ) /
        ((2 ^ (10 - natLog2 (p / q)) : ℕ) : ℚ)
    else
      (roundHalfEvenNat p (q * 2 ^ (natLog2 (p / q) - 10)) : ℚ) *
        ((2 ^ (natLog2 (p / q) - 10) : ℕ) : ℚ)
  else
    (roundHalfEvenNat (p * 2 ^ (10 + ceilLog2Div q p)) q : ℚ) /
      ((2 ^ (10 + ceilLog2Div q p) : ℕ) : ℚ)

/-- Embeds the FP16 cast of one weight value. -/
def fp16Round (x : ℚ) : ℚ :=
  if x = 0 then 0
  else if 0 < x then fp16RoundPos x.num.toNat x.den
  else -fp16RoundPos (-x).num.toNat (-x).den

/-- The wrapped `ClipDecoder`'s parameters as seen by `save`: the current
storage precision (`fp16 = true` after a `.half()` cast) and the weight
values. -/
structure TorchModel where
  fp16 : Bool
  weights : List ℚ
deriving DecidableEq

/-- Embeds `self.model.state_dict()` (line 103): a snapshot of the current
weight values.  The snapshot keeps references to the FP32 storages, which
survive the in-place cast below (the cast rebinds each parameter's data to a
fresh FP16 tensor), so the snapshot holds the original values. -/
def state_dict (M : TorchModel) : List ℚ := M.weights

/-- Embeds `self.model.half()` (line 105): every parameter is rebound in place
to an FP16 copy of its value. -/
def halfCast (M : TorchModel) : TorchModel := ⟨true, M.weights.map fp16Round⟩

/-- Embeds `self.model.load_state_dict(sd)` (line 108): each incoming value is
copied into the existing parameter with `param.copy_`, which casts the value
to the parameter's current dtype. -/
def load_state_dict (M : TorchModel) (sd : List ℚ) : TorchModel :=
  ⟨M.fp16, if M.fp16 then sd.map fp16Round else sd⟩

/-- The net effect of `ClipDecoderInferenceModel.save` on `self.model`
(lines 101-108): snapshot the weights, cast the model to FP16 in place for
serialization, then load the snapshot back. -/
def saveModelEffect (M : TorchModel) : TorchModel :=
  load_state_dict (halfCast M) (state_dict M)

/-! ## Concrete instances used to evaluate the theorems -/

/-- Small concrete generation model over a three-token vocabulary: from the
start token the best next token is `0`, and from any longer prefix the best
next token is `1 = eos`, so decoding ends after two generated tokens. -/
def testModel : GenModel ℤ where
  nextLogprobs := fun ids => if ids.length ≤ 1 then [-1, -2, -3] else [-5, -1, -9]
  bos := 0
  eos := 1
  decode := fun _ => "caption"

/-- Concrete generation model whose start token equals its end token, as in
the repository's GPT-2 tokenizer (`bos_token_id = eos_token_id = 50256`). -/
def eosModel : GenModel ℤ where
  nextLogprobs := fun _ => [-2, -1]
  bos := 1
  eos := 1
  decode := fun _ => "caption"

theorem testModel_vocab (k : ℕ) (hk : k ≤ 3) :
    ∀ ids, k ≤ (testModel.nextLogprobs ids).length := by
  intro ids
  show k ≤ (if ids.length ≤ 1 then [-1, -2, -3] else ([-5, -1, -9] : List ℤ)).length
  by_cases h : ids.length ≤ 1
  · rw [if_pos h]; simpa using hk
  · rw [if_neg h]; simpa using hk

theorem testModel_vocab_ne : ∀ ids, testModel.nextLogprobs ids ≠ [] := by
  intro ids
  show (if ids.length ≤ 1 then [-1, -2, -3] else ([-5, -1, -9] : List ℤ)) ≠ []
  by_cases h : ids.length ≤ 1
  · rw [if_pos h]; simp
  · rw [if_neg h]; simp

/-! ## The claims -/

/-- C1: at every decoding step of `ClipDecoderInferenceModel.__call__`, each
active (not yet ended) beam is extended by each of its top-`beam_size`
next-token continuations, with score equal to the continuation token's
log-probability plus the beam's cumulative log-probability; the candidates of
all beams are merged into one pool, and the new beam set is exactly the
`beam_size` highest-scoring candidates of that pool (every selected candidate
scores at least every unselected one; ties follow the deterministic tie-break
of `topkIndices`). -/
theorem C1_step_merges_pool_and_selects_topk {α : Type} [LinearOrder α] [AddZeroClass α]
    (m : GenModel α) (k : ℕ) (S S' : BeamState α) (h : stepResult m k S = some S') :
    (∀ p ∈ S.input_ids.enum, beamDone m S.beam_logprobs p.2 = false →
        beamCandidates m k S.beam_logprobs p =
          (topkIndices (m.nextLogprobs p.2) k).map
            (fun t => (p.2 ++ [t],
              (m.nextLogprobs p.2).getD t 0 + cumOf S.beam_logprobs p.1))) ∧
    candidatePool m k S = S.input_ids.enum.flatMap (beamCandidates m k S.beam_logprobs) ∧
    S'.input_ids = (topkIndices ((candidatePool m k S).map Prod.snd) k).map
      (fun i => ((candidatePool m k S).map Prod.fst).getD i []) ∧
    S'.beam_logprobs = some ((topkIndices ((candidatePool m k S).map Prod.snd) k).map
      (fun i => ((candidatePool m k S).map Prod.snd).getD i 0)) ∧
    (∀ i ∈ topkIndices ((candidatePool m k S).map Prod.snd) k,
      ∀ j < (candidatePool m k S).length,
        j ∉ topkIndices ((candidatePool m k S).map Prod.snd) k →
          ((candidatePool m k S).map Prod.snd).getD j 0 ≤
            ((candidatePool m k S).map Prod.snd).getD i 0) ∧
    (∀ ids : List Token, ∀ t ∈ topkIndices (m.nextLogprobs ids) k,
      ∀ u < (m.nextLogprobs ids).length, u ∉ topkIndices (m.nextLogprobs ids) k →
        (m.nextLogprobs ids).getD u 0 ≤ (m.nextLogprobs ids).getD t 0) := by
  obtain ⟨h1, h2⟩ := stepResult_some_eq h
  refine ⟨?_, rfl, h1, h2, ?_, ?_⟩
  · intro p hp hnd
    unfold beamCandidates
    rw [if_neg (by rw [hnd]; simp)]
  · intro i hi j hj hjn
    have hj2 : j < ((candidatePool m k S).map Prod.snd).length := by
      rw [List.length_map]
      exact hj
    exact topkIndices_getD_le hi hj2 hjn
  · intro ids t ht u hu hun
    exact topkIndices_getD_le ht hu hun

/-- C1 witness: the theorem evaluated on `testModel` with `beam_size = 2` at
the initial state, whose step is computed concretely. -/
theorem C1_witness :
    (∀ p ∈ (initState testModel).input_ids.enum,
      beamDone testModel (initState testModel).beam_logprobs p.2 = false →
        beamCandidates testModel 2 (initState testModel).beam_logprobs p =
          (topkIndices (testModel.nextLogprobs p.2) 2).map
            (fun t => (p.2 ++ [t],
              (testModel.nextLogprobs p.2).getD t 0 +
                cumOf (initState testModel).beam_logprobs p.1))) ∧
    candidatePool testModel 2 (initState testModel) =
      (initState testModel).input_ids.enum.flatMap
        (beamCandidates testModel 2 (initState testModel).beam_logprobs) ∧
    (⟨[[0, 0], [0, 1]], some [-1, -2]⟩ : BeamState ℤ).input_ids =
      (topkIndices ((candidatePool testModel 2 (initState testModel)).map Prod.snd) 2).map
        (fun i => ((candidatePool testModel 2 (initState testModel)).map Prod.fst).getD i []) ∧
    (⟨[[0, 0], [0, 1]], some [-1, -2]⟩ : BeamState ℤ).beam_logprobs =
      some ((topkIndices ((candidatePool testModel 2 (initState testModel)).map Prod.snd) 2).map
        (fun i => ((candidatePool testModel 2 (initState testModel)).map Prod.snd).getD i 0)) ∧
    (∀ i ∈ topkIndices ((candidatePool testModel 2 (initState testModel)).map Prod.snd) 2,
      ∀ j < (candidatePool testModel 2 (initState testModel)).length,
        j ∉ topkIndices ((candidatePool testModel 2 (initState testModel)).map Prod.snd) 2 →
          ((candidatePool testModel 2 (initState testModel)).map Prod.snd).getD j 0 ≤
            ((candidatePool testModel 2 (initState testModel)).map Prod.snd).getD i 0) ∧
    (∀ ids : List Token, ∀ t ∈ topkIndices (testModel.nextLogprobs ids) 2,
      ∀ u < (testModel.nextLogprobs ids).length,
        u ∉ topkIndices (testModel.nextLogprobs ids) 2 →
          (testModel.nextLogprobs ids).getD u 0 ≤ (testModel.nextLogprobs ids).getD t 0) :=
  C1_step_merges_pool_and_selects_topk testModel 2 (initState testModel)
    ⟨[[0, 0], [0, 1]], some [-1, -2]⟩ (by decide)

/-- C2 counterexample: decoding does not stop "as soon as every beam in the
beam set ends with the end-of-sequence token".  When the start token equals
the end token (as it does for the repository's GPT-2 tokenizer, where
`bos_token_id = eos_token_id`), every beam of the initial beam set already
ends with `eos`, yet the first iteration expands it and the returned sequence
is strictly longer than the start beam. -/
theorem C2_counterexample :
    (∀ ids ∈ (initState eosModel).input_ids, ids.getLast? = some eosModel.eos) ∧
    stepResult eosModel 1 (initState eosModel) ≠ none ∧
    callTokens eosModel 3 1 = some [1, 1] :=
  ⟨by decide, by decide, by decide⟩

/-- C2 (amended): for `beam_size ≥ 1` and `max_len ≥ 2`, decoding terminates
after at most `max_len - 1` expansion steps; the end-of-sequence stop check is
skipped on the first iteration (where no scores are recorded), and from the
first re-ranking on the loop breaks exactly when every beam ends with the
end-of-sequence token; the returned string is the tokenizer decoding of the
beam with the maximum cumulative log-probability in the final beam set. -/
theorem C2_terminates_and_returns_argmax {α : Type} [LinearOrder α] [AddZeroClass α]
    (m : GenModel α) (max_len k : ℕ) (h2 : 2 ≤ max_len) (hk : 1 ≤ k)
    (hv : ∀ ids, k ≤ (m.nextLogprobs ids).length) :
    ∃ n, 1 ≤ n ∧ n ≤ max_len - 1 ∧
      runLoop m k (max_len - 1) (initState m) = (stepFn m k)^[n] (initState m) ∧
      (∀ i < n, stepResult m k ((stepFn m k)^[i] (initState m)) ≠ none) ∧
      (n < max_len - 1 → stepResult m k ((stepFn m k)^[n] (initState m)) = none) ∧
      (∀ i, 1 ≤ i →
        (stepResult m k ((stepFn m k)^[i] (initState m)) = none ↔
          ∀ ids ∈ ((stepFn m k)^[i] (initState m)).input_ids,
            ids.getLast? = some m.eos)) ∧
      ∃ lps, ((stepFn m k)^[n] (initState m)).beam_logprobs = some lps ∧
        callTokens m max_len k =
          some (((stepFn m k)^[n] (initState m)).input_ids.getD (argmaxIdx lps) []) ∧
        callString m max_len k =
          some (m.decode (((stepFn m k)^[n] (initState m)).input_ids.getD (argmaxIdx lps) [])) ∧
        argmaxIdx lps < ((stepFn m k)^[n] (initState m)).input_ids.length ∧
        (∀ j < lps.length, lps.getD j 0 ≤ lps.getD (argmaxIdx lps) 0) := by
  obtain ⟨n, hn, he, hsome, hnone⟩ := runLoop_spec m k (max_len - 1) (initState m)
  have hn1 : 1 ≤ n := by
    rcases Nat.eq_zero_or_pos n with rfl | hpos
    · exfalso
      have h0 : 0 < max_len - 1 := by omega
      have hx := hnone h0
      rw [Function.iterate_zero_apply] at hx
      exact stepResult_init_ne_none m k hx
    · exact hpos
  refine ⟨n, hn1, hn, he, hsome, hnone, ?_, ?_⟩
  · intro i hi
    obtain ⟨lps', hl', hiLen, hlpsLen, _⟩ := stateInv_iterate m k hk hv i hi
    refine stepResult_none_iff_ended hl' ?_
    intro hcon
    rw [hcon] at hlpsLen
    simp at hlpsLen
    omega
  · have hinv := stateInv_iterate m k hk hv n hn1
    obtain ⟨lps, h1, hlk, hfin, halt, hmax⟩ := finalizeBeams_of_inv hk hinv
    refine ⟨lps, h1, ?_, ?_, halt, hmax⟩
    · unfold callTokens
      rw [he, hfin]
    · unfold callString callTokens
      rw [he, hfin]
      rfl

/-- C2 witness: the amended theorem evaluated on `testModel` with
`max_len = 4` and `beam_size = 2`. -/
theorem C2_witness :
    ∃ n, 1 ≤ n ∧ n ≤ 4 - 1 ∧
      runLoop testModel 2 (4 - 1) (initState testModel) =
        (stepFn testModel 2)^[n] (initState testModel) ∧
      (∀ i < n, stepResult testModel 2 ((stepFn testModel 2)^[i] (initState testModel)) ≠ none) ∧
      (n < 4 - 1 →
        stepResult testModel 2 ((stepFn testModel 2)^[n] (initState testModel)) = none) ∧
      (∀ i, 1 ≤ i →
        (stepResult testModel 2 ((stepFn testModel 2)^[i] (initState testModel)) = none ↔
          ∀ ids ∈ ((stepFn testModel 2)^[i] (initState testModel)).input_ids,
            ids.getLast? = some testModel.eos)) ∧
      ∃ lps, ((stepFn testModel 2)^[n] (initState testModel)).beam_logprobs = some lps ∧
        callTokens testModel 4 2 =
          some (((stepFn testModel 2)^[n] (initState testModel)).input_ids.getD
            (argmaxIdx lps) []) ∧
        callString testModel 4 2 =
          some (testModel.decode
            (((stepFn testModel 2)^[n] (initState testModel)).input_ids.getD
              (argmaxIdx lps) [])) ∧
        argmaxIdx lps < ((stepFn testModel 2)^[n] (initState testModel)).input_ids.length ∧
        (∀ j < lps.length, lps.getD j 0 ≤ lps.getD (argmaxIdx lps) 0) :=
  C2_terminates_and_returns_argmax testModel 4 2 (by omega) (by omega)
    (testModel_vocab 2 (by omega))

/-- C3 counterexample: with `max_len = 1` the call raises
(`torch.tensor(None)` at line 173, since the loop body never ran and
`beam_logprobs` is still `None`), while greedy decoding of length 1 returns
the start token, so the two disagree at `max_len = 1`. -/
theorem C3_counterexample :
    callString testModel 1 1 = none ∧
    testModel.decode (greedy testModel 1) = "caption" ∧
    callString testModel 1 1 ≠ some (testModel.decode (greedy testModel 1)) :=
  ⟨rfl, rfl, by decide⟩

/-- C3 (amended): for every model with a non-empty vocabulary and every
`max_len ≥ 2`, calling with `beam_size = 1` returns exactly the greedy
decoding: the sequence obtained by repeatedly appending the argmax next token
to the start token until the end token is generated or the maximum length is
reached. -/
theorem C3_beam1_is_greedy {α : Type} [LinearOrder α] [AddZeroClass α] (m : GenModel α)
    (max_len : ℕ) (h2 : 2 ≤ max_len) (hv : ∀ ids, m.nextLogprobs ids ≠ []) :
    callTokens m max_len 1 = some (greedy m max_len) ∧
    callString m max_len 1 = some (m.decode (greedy m max_len)) := by
  have h := callTokens_beam1 max_len h2 hv
  refine ⟨h, ?_⟩
  unfold callString
  rw [h]
  rfl

/-- C3 witness: the amended theorem evaluated on `testModel` with
`max_len = 4`. -/
theorem C3_witness :
    callTokens testModel 4 1 = some (greedy testModel 4) ∧
    callString testModel 4 1 = some (testModel.decode (greedy testModel 4)) :=
  C3_beam1_is_greedy testModel 4 (by omega) testModel_vocab_ne

/-- C4: the beam set never holds more than `beam_size` beams, before or after
any decoding step, and whenever the global re-ranking executes (the step does
not break) the merged pool offers at least `beam_size` candidates. -/
theorem C4_beam_count_bounded {α : Type} [LinearOrder α] [AddZeroClass α]
    (m : GenModel α) (k : ℕ) (hk : 1 ≤ k)
    (hv : ∀ ids, k ≤ (m.nextLogprobs ids).length) :
    (∀ n, ((stepFn m k)^[n] (initState m)).input_ids.length ≤ k) ∧
    (∀ S : BeamState α, stepResult m k S ≠ none → k ≤ (candidatePool m k S).length) := by
  constructor
  · intro n
    induction n with
    | zero =>
      rw [Function.iterate_zero_apply]
      show ([[m.bos]] : List (List Token)).length ≤ k
      simpa using hk
    | succ n ih =>
      rw [Function.iterate_succ_apply']
      cases h : stepResult m k ((stepFn m k)^[n] (initState m)) with
      | none =>
        rw [stepFn_eq_of_none h]
        exact ih
      | some S' =>
        rw [stepFn_eq_of_some h]
        obtain ⟨h1, _⟩ := stepResult_some_eq h
        rw [h1, List.length_map, topkIndices_length]
        omega
  · intro S h
    exact candidatePool_length_ge hv h

/-- C4 witness: the theorem evaluated on `testModel` with `beam_size = 2`,
sampled at the fifth iterate and at the initial state's re-ranking. -/
theorem C4_witness :
    ((stepFn testModel 2)^[5] (initState testModel)).input_ids.length ≤ 2 ∧
    2 ≤ (candidatePool testModel 2 (initState testModel)).length :=
  ⟨(C4_beam_count_bounded testModel 2 (by omega) (testModel_vocab 2 (by omega))).1 5,
   (C4_beam_count_bounded testModel 2 (by omega) (testModel_vocab 2 (by omega))).2
     (initState testModel) (by decide)⟩

/-- C5: a beam whose last token is the end-of-sequence token (once scores are
recorded) is flagged done and contributes exactly one candidate to the pool —
its own token sequence, unchanged, with its cumulative log-probability
unchanged — and in the accumulating loop it is likewise carried verbatim, so
it is never expanded again in any subsequent step. -/
theorem C5_ended_beam_carried_verbatim {α : Type} [LinearOrder α] [AddZeroClass α]
    (m : GenModel α) (k : ℕ) (lps : List α) (i : ℕ) (ids : List Token)
    (h1 : lps ≠ []) (h2 : ids.getLast? = some m.eos) :
    beamDone m (some lps) ids = true ∧
    beamCandidates m k (some lps) (i, ids) = [(ids, lps.getD i 0)] ∧
    ∀ rest, expandBeams m k (some lps) ((i, ids) :: rest) =
      (ids :: (expandBeams m k (some lps) rest).1,
       lps.getD i 0 :: (expandBeams m k (some lps) rest).2.1,
       true :: (expandBeams m k (some lps) rest).2.2) := by
  have hd : beamDone m (some lps) ids = true := (beamDone_some_iff h1 ids).mpr h2
  have hcand : beamCandidates m k (some lps) (i, ids) = [(ids, lps.getD i 0)] := by
    unfold beamCandidates
    rw [if_pos hd]
    rfl
  refine ⟨hd, hcand, ?_⟩
  intro rest
  rw [expandBeams_eq m k (some lps) ((i, ids) :: rest), expandBeams_eq m k (some lps) rest,
    List.flatMap_cons, hcand]
  simp [hd]

/-- C5 witness: the theorem evaluated on `testModel` at the ended beam
`[0, 1]` with recorded scores `[-1, -2]`. -/
theorem C5_witness :
    beamDone testModel (some [-1, -2]) [0, 1] = true ∧
    beamCandidates testModel 2 (some [-1, -2]) (1, [0, 1]) = [([0, 1], -2)] ∧
    expandBeams testModel 2 (some [-1, -2]) ((1, [0, 1]) :: []) =
      ([0, 1] :: (expandBeams testModel 2 (some [-1, -2]) []).1,
       -2 :: (expandBeams testModel 2 (some [-1, -2]) []).2.1,
       true :: (expandBeams testModel 2 (some [-1, -2]) []).2.2) :=
  ⟨(C5_ended_beam_carried_verbatim testModel 2 [-1, -2] 1 [0, 1] (by decide) (by decide)).1,
   (C5_ended_beam_carried_verbatim testModel 2 [-1, -2] 1 [0, 1] (by decide) (by decide)).2.1,
   (C5_ended_beam_carried_verbatim testModel 2 [-1, -2] 1 [0, 1] (by decide) (by decide)).2.2 []⟩

/-- C6: calling with `max_len = 1` does not return successfully: the loop body
never runs, `beam_logprobs` is still `None` at line 173, and
`torch.tensor(None)` raises, for every model and beam size. -/
theorem C6_maxlen_one_raises {α : Type} [LinearOrder α] [AddZeroClass α]
    (m : GenModel α) (k : ℕ) :
    callTokens m 1 k = none ∧ callString m 1 k = none :=
  ⟨rfl, rfl⟩

/-- C7: for an input embedding of shape `(batch, 1, num_features)` with
`num_features ≤ 768`, `ClipDecoder.forward` hands the language model a hidden
state of shape `(batch, 1, 768)` whose first `num_features` entries are the
input embedding and whose remaining `768 - num_features` entries are zero; the
embedding itself is not otherwise transformed (zero padding is appended). -/
theorem C7_forward_zero_pads (ehs : List (List (List ℚ))) (n : ℕ) (hn : n ≤ 768)
    (hs : ∀ seq ∈ ehs, ∀ row ∈ seq, row.length = n) :
    forwardHidden ehs =
      ehs.map (fun seq => seq.map (fun row => row ++ List.replicate (768 - n) 0)) ∧
    ∀ seq ∈ ehs, ∀ row ∈ seq,
      (assignFront (List.replicate 768 0) row).length = 768 ∧
      (assignFront (List.replicate 768 0) row).take n = row ∧
      (assignFront (List.replicate 768 0) row).drop n = List.replicate (768 - n) 0 := by
  have hrow : ∀ seq ∈ ehs, ∀ row ∈ seq,
      assignFront (List.replicate 768 0) row = row ++ List.replicate (768 - n) 0 := by
    intro seq hseq row hrowm
    unfold assignFront
    rw [hs seq hseq row hrowm, List.drop_replicate]
  constructor
  · unfold forwardHidden
    refine List.map_congr_left ?_
    intro seq hseq
    refine List.map_congr_left ?_
    intro row hrowm
    exact hrow seq hseq row hrowm
  · intro seq hseq row hrowm
    have he := hrow seq hseq row hrowm
    have hlen := hs seq hseq row hrowm
    refine ⟨?_, ?_, ?_⟩
    · rw [he, List.length_append, hlen, List.length_replicate]
      omega
    · rw [he, ← hlen, List.take_left]
    · rw [he, ← hlen, List.drop_left]

/-- C7 witness: the theorem evaluated on a batch of one two-feature
embedding. -/
theorem C7_witness :
    forwardHidden [[[(5 : ℚ), 7]]] = [[[(5 : ℚ), 7] ++ List.replicate 766 0]] ∧
    (assignFront (List.replicate 768 0) [(5 : ℚ), 7]).length = 768 ∧
    (assignFront (List.replicate 768 0) [(5 : ℚ), 7]).take 2 = [(5 : ℚ), 7] ∧
    (assignFront (List.replicate 768 0) [(5 : ℚ), 7]).drop 2 = List.replicate 766 0 := by
  have h := C7_forward_zero_pads [[[(5 : ℚ), 7]]] 2 (by omega)
    (by
      intro seq hseq row hrowm
      simp only [List.mem_singleton] at hseq
      subst hseq
      simp only [List.mem_singleton] at hrowm
      subst hrowm
      rfl)
  have h2 := h.2 [[(5 : ℚ), 7]] (by simp) [(5 : ℚ), 7] (by simp)
  exact ⟨h.1, h2.1, h2.2.1, h2.2.2⟩

/-- C8 counterexample: there is no defensive fallback for an empty beam set.
On a state whose beam set is fully empty the loop breaks immediately without
progress (`all([])` is `True`), and the final extraction fails (an empty
`argmax`, modelled as `none`) instead of returning a best partial sequence. -/
theorem C8_counterexample :
    stepResult testModel 2 (⟨[], some []⟩ : BeamState ℤ) = none ∧
    finalizeBeams (⟨[], some []⟩ : BeamState ℤ) = none ∧
    finalizeBeams (runLoop testModel 2 7 (⟨[], some []⟩ : BeamState ℤ)) = none :=
  ⟨by decide, by decide, by decide⟩

theorem candidatePool_length_pos {α : Type} [LinearOrder α] [AddZeroClass α]
    {m : GenModel α} {k : ℕ} {S : BeamState α} (hk : 1 ≤ k)
    (hv : ∀ ids, 1 ≤ (m.nextLogprobs ids).length)
    (h : stepResult m k S ≠ none) : 1 ≤ (candidatePool m k S).length := by
  have hex : ∃ ids ∈ S.input_ids, ¬ beamDone m S.beam_logprobs ids = true := by
    by_contra hall
    push_neg at hall
    exact h ((stepResult_eq_none_iff m k S).mpr hall)
  obtain ⟨ids, hm, hfalse⟩ := hex
  rw [← List.enum_map_snd S.input_ids] at hm
  obtain ⟨p, hp, he⟩ := List.mem_map.mp hm
  have hlen : 1 ≤ (beamCandidates m k S.beam_logprobs p).length := by
    unfold beamCandidates
    rw [if_neg (by rw [he]; exact hfalse)]
    rw [List.length_map, topkIndices_length]
    have := hv p.2
    omega
  exact le_trans hlen (length_le_length_flatMap (beamCandidates m k S.beam_logprobs) hp)

/-- C8 (amended): the beam set can never become fully empty during decoding:
the initial beam set is a singleton and every re-ranking selects at least one
candidate, so the fallback situation the specification describes is
unreachable (and, were it forced, the final extraction would fail rather than
return a partial sequence). -/
theorem C8_beam_set_never_empty {α : Type} [LinearOrder α] [AddZeroClass α]
    (m : GenModel α) (k : ℕ) (hk : 1 ≤ k)
    (hv : ∀ ids, 1 ≤ (m.nextLogprobs ids).length) :
    ∀ n, ((stepFn m k)^[n] (initState m)).input_ids ≠ [] := by
  intro n
  induction n with
  | zero =>
    rw [Function.iterate_zero_apply]
    show ([[m.bos]] : List (List Token)) ≠ []
    simp
  | succ n ih =>
    rw [Function.iterate_succ_apply']
    cases h : stepResult m k ((stepFn m k)^[n] (initState m)) with
    | none =>
      rw [stepFn_eq_of_none h]
      exact ih
    | some S' =>
      rw [stepFn_eq_of_some h]
      obtain ⟨h1, _⟩ := stepResult_some_eq h
      have hpool := candidatePool_length_pos hk hv (by rw [h]; simp)
      intro hcon
      rw [h1] at hcon
      have hlen := congrArg List.length hcon
      rw [List.length_map, topkIndices_length, List.length_map] at hlen
      simp only [List.length_nil] at hlen
      omega

/-- C8 witness: the amended theorem evaluated on `testModel` with
`beam_size = 1` at the third iterate. -/
theorem C8_witness :
    ((stepFn testModel 1)^[3] (initState testModel)).input_ids ≠ [] :=
  C8_beam_set_never_empty testModel 1 (by omega) (testModel_vocab 1 (by omega)) 3

/-- C9: `ClipDecoderInferenceModel.save` does not leave the in-memory model
unchanged.  The state-dict snapshot does keep the original FP32 values (the
in-place `.half()` rebinds parameters to fresh FP16 storage), but
`load_state_dict` copies them back into the now-FP16 parameters with
`param.copy_`, which casts to the parameter's dtype: afterwards the model is
still FP16 and a weight such as `0.1` has been rounded to `819/8192`. -/
theorem C9_save_corrupts_weights :
    saveModelEffect ⟨false, [1/10]⟩ = ⟨true, [819/8192]⟩ ∧
    (819/8192 : ℚ) ≠ 1/10 ∧
    saveModelEffect ⟨false, [1/10]⟩ ≠ ⟨false, [1/10]⟩ := by
  have h : saveModelEffect ⟨false, [1/10]⟩ = ⟨true, [819/8192]⟩ := by
    norm_num [saveModelEffect, load_state_dict, halfCast, state_dict, fp16Round,
      fp16RoundPos, ceilLog2Div, ceilLog2DivGo, roundHalfEvenNat, natLog2, natLog2Go]
  refine ⟨h, by norm_num, ?_⟩
  rw [h]
  intro hcon
  simp only [TorchModel.mk.injEq] at hcon
  exact Bool.noConfusion hcon.1

/-- Concrete vocabulary bound for `eosModel`. -/
theorem eosModel_vocab : ∀ ids, 1 ≤ (eosModel.nextLogprobs ids).length := by
  intro ids
  show 1 ≤ ([-2, -1] : List ℤ).length
  simp

/-- C10: on the first decoding step the end-of-sequence check is skipped
(`beam_logprobs` is still `None`), so the initial start-token beam is always
expanded — even when the start token is itself the end-of-sequence token —
and consequently every call with `max_len ≥ 2` returns a token sequence of at
least two ids beginning with the start token. -/
theorem C10_first_step_always_expands {α : Type} [LinearOrder α] [AddZeroClass α]
    (m : GenModel α) (max_len k : ℕ) (h2 : 2 ≤ max_len) (hk : 1 ≤ k)
    (hv : ∀ ids, k ≤ (m.nextLogprobs ids).length) :
    beamDone m (initState m).beam_logprobs [m.bos] = false ∧
    stepResult m k (initState m) ≠ none ∧
    ∃ ids, callTokens m max_len k = some ids ∧ 2 ≤ ids.length ∧
      ids.head? = some m.bos := by
  refine ⟨rfl, stepResult_init_ne_none m k, ?_⟩
  obtain ⟨n, hn, he, hsome, hnone⟩ := runLoop_spec m k (max_len - 1) (initState m)
  have hn1 : 1 ≤ n := by
    rcases Nat.eq_zero_or_pos n with rfl | hpos
    · exfalso
      have h0 : 0 < max_len - 1 := by omega
      have hx := hnone h0
      rw [Function.iterate_zero_apply] at hx
      exact stepResult_init_ne_none m k hx
    · exact hpos
  have hinv := stateInv_iterate m k hk hv n hn1
  obtain ⟨lps, h1, hlk, hfin, halt, _⟩ := finalizeBeams_of_inv hk hinv
  have hmem : ((stepFn m k)^[n] (initState m)).input_ids.getD (argmaxIdx lps) [] ∈
      ((stepFn m k)^[n] (initState m)).input_ids := by
    rw [List.getD_eq_getElem _ _ halt]
    exact List.getElem_mem halt
  obtain ⟨lps2, _, _, _, hbeams⟩ := hinv
  refine ⟨((stepFn m k)^[n] (initState m)).input_ids.getD (argmaxIdx lps) [], ?_,
    (hbeams _ hmem).1, (hbeams _ hmem).2⟩
  unfold callTokens
  rw [he, hfin]

/-- C10 witness: the theorem evaluated on `eosModel`, whose start token equals
its end token, with `max_len = 3` and `beam_size = 1`. -/
theorem C10_witness :
    beamDone eosModel (initState eosModel).beam_logprobs [eosModel.bos] = false ∧
    stepResult eosModel 1 (initState eosModel) ≠ none ∧
    ∃ ids, callTokens eosModel 3 1 = some ids ∧ 2 ≤ ids.length ∧
      ids.head? = some eosModel.bos :=
  C10_first_step_always_expands eosModel 3 1 (by omega) (by omega) eosModel_vocab

end ClipTextDecoder
